import Mathlib

/-!
Verification of the harvesting engine of `backend/scrape.py` (with its earlier
variant `scripts/metadata.py`): the rate-limit retry wrapper, the file-tree
probe, the search-space partitioner, the metadata collector and the driving
loop, shallowly embedded as executable Lean definitions.  Remote calls are
modelled by oracles (functions supplying the values the GitHub API would
return); timestamps are Unix seconds as integers; the Python `float`
percentages are modelled over `ℚ` (division-by-zero is made explicit as an
`Option` failure, mirroring `ZeroDivisionError`).
-/

/-- Static exclusion list (`BLACKLIST` in `backend/scrape.py`). -/
def BLACKLIST : List String :=
  ["nextflow-io", "nf-core/modules", "nf-core/tools", "nf-core/configs"]

/-- The fixed safety margin of `rate_limit_wait`
(`# add 5 seconds to be sure the rate limit has been reset`). -/
def rateLimitMargin : Int := 5

/-- `rate_limit_wait`'s computed sleep duration:
`sleep_time = max(0, reset_timestamp - curr_timestamp) + 5`
(identical in `backend/scrape.py` and `scripts/metadata.py`). -/
def sleep_time (now reset : Int) : Int :=
  max 0 (reset - now) + rateLimitMargin

/-- Result of one attempt of a remote call: a returned value, a
`RateLimitExceededException`, or any other raised exception (identified by a
numeric code). -/
inductive CallOutcome (α : Type)
  | ok (a : α)
  | rateLimited
  | raised (e : Nat)
deriving DecidableEq, Repr

/-- `call_rate_aware` (`backend/scrape.py`, same loop in
`call_rate_aware_decorator` and in `scripts/metadata.py`'s
`call_rate_limit_aware`):

    while True:
        try:
            return func()
        except RateLimitExceededException:
            rate_limit_wait(api_type)

The repeated invocations of `func` are modelled as a sequence of attempt
outcomes; `i` is the index of the next attempt and `fuel` bounds how many loop
iterations we observe (`none` means the loop had not returned nor raised after
`fuel` iterations).  A non-rate-limit exception is re-raised, which the model
expresses by returning the `raised` outcome. -/
def call_rate_aware {α : Type} (attempts : Nat → CallOutcome α) (i : Nat) :
    Nat → Option (CallOutcome α)
  | 0 => none
  | fuel + 1 =>
    match attempts i with
    | .rateLimited => call_rate_aware attempts (i + 1) fuel
    | o => some o

/-- `get_language_percentages` (identical in `backend/scrape.py` and
`scripts/metadata.py`):

    languages = repo.get_languages()
    total_bytes = sum(languages.values())
    return {lang: (bytes / total_bytes) * 100 for lang, bytes in languages.items()}

The per-language byte map is a list of (language, byte count) pairs; `none`
models the `ZeroDivisionError` raised by `bytes / total_bytes` as soon as one
division is attempted with `total_bytes == 0` (so only when the map has at
least one item). -/
def percList (total : ℚ) : List (String × Nat) → Option (List (String × ℚ))
  | [] => some []
  | lb :: rest =>
    if total = 0 then none
    else
      match percList total rest with
      | none => none
      | some tl => some ((lb.1, (lb.2 : ℚ) / total * 100) :: tl)

/-- `get_language_percentages`: see `percList` for the comprehension body. -/
def get_language_percentages (languages : List (String × Nat)) :
    Option (List (String × ℚ)) :=
  percList (((languages.map Prod.snd).sum : Nat) : ℚ) languages

/-- One entry of a directory listing returned by `repo.get_contents(path)`. -/
structure Entry where
  type : String
  name : String
  path : String
deriving DecidableEq, Repr

/-- Python's `s.endswith(suffix)`, on the character lists of both strings. -/
def endswith (s suffix : String) : Bool := suffix.data.isSuffixOf s.data

/-- Python's `s.lower()`: lower-case every character. -/
def lower (s : String) : String := String.mk (s.data.map Char.toLower)

/-- Python's `pat in s` substring test, on character lists. -/
def hasSubstr (pat : List Char) : List Char → Bool
  | [] => pat.isEmpty
  | c :: rest => pat.isPrefixOf (c :: rest) || hasSubstr pat rest

/-- `f.type == "file" and f.name.endswith(".nf")`. -/
def isNfFile (f : Entry) : Bool := f.type == "file" && endswith f.name ".nf"

/-- `f.type == "dir"`. -/
def isDir (f : Entry) : Bool := f.type == "dir"

/-- Inner loop of the file-tree probe in `_collect_repo_metadata`
(`for f1 in call_rate_aware(lambda: repo.get_contents(f.path)): ...`): append
the first `.nf` file of the subdirectory, then `break` (the `break` leaves only
this inner loop). -/
def scanSubdir : List Entry → List String
  | [] => []
  | f1 :: rest =>
    if f1.type == "file" then
      if endswith f1.name ".nf" then [f1.path] else scanSubdir rest
    else scanSubdir rest

/-- Result of the file-tree probe: `nf_files_in_root`, `nf_files_in_subfolders`
and, for accounting, the list of paths passed to the per-directory
`repo.get_contents(f.path)` listing calls, in call order. -/
structure ProbeOut where
  root : List String
  sub : List String
  calls : List String
deriving DecidableEq, Repr

/-- Outer loop of the file-tree probe in `_collect_repo_metadata`
(`for f in call_rate_aware(lambda: repo.get_contents("")): ...`).  Note the
root-level `break` after `nf_files_in_root.append(f.path)` leaves the WHOLE
loop, so entries after the first matching root file are not visited at all. -/
def scanRoot (dirContents : String → List Entry) : List Entry → ProbeOut
  | [] => ⟨[], [], []⟩
  | f :: rest =>
    if f.type == "file" then
      if endswith f.name ".nf" then ⟨[f.path], [], []⟩
      else scanRoot dirContents rest
    else if f.type == "dir" then
      let r := scanRoot dirContents rest
      ⟨r.root, scanSubdir (dirContents f.path) ++ r.sub, f.path :: r.calls⟩
    else scanRoot dirContents rest

/-- A remote call made during collection, for accounting which fetches happen:
the initial `g.get_repo`, a directory listing `repo.get_contents(path)`, a
metadata field fetch (named by the `d[...]` key it fills), the
`check_file_exists(repo, "README.md")` probe, and a file fetch. -/
inductive Call
  | getRepo (fullName : String)
  | listDir (path : String)
  | fieldFetch (field : String)
  | fileExists (path : String)
  | getFile (path : String)
deriving DecidableEq, Repr

/-- Oracle for one existing remote repository: the values the GitHub API
returns for it.  `releases` is in the paginated list's forward order (so
`reversed[0]` is its last element); `dirContents` maps a path to its listing;
`fileText` is the decoded text content of a file (`none` models a decode
failure of `decoded_content.decode()`). -/
structure GhRepo where
  htmlUrl : String
  name : String
  ownerLogin : String
  description : Option String
  updatedAt : Nat
  createdAt : Nat
  topics : List String
  homepage : Option String
  stars : Nat
  watchers : Nat
  forks : Nat
  lastCommitDate : Nat
  releases : List (Nat × String)
  parentFullName : Option String
  issuesAll : Nat
  issuesOpen : Nat
  issuesClosed : Nat
  prsAll : Nat
  prsOpen : Nat
  prsClosed : Nat
  contributors : Nat
  language : Option String
  languages : List (String × Nat)
  rootContents : List Entry
  dirContents : String → List Entry
  fileText : String → Option String

/-- A row of the `filteredrepo` table (`FilteredRepositorySQLModel`).
`repoExists` is the source's `exists` column. -/
structure FilteredRecord where
  url : String
  repoExists : Bool
  no_nf_files : Option Bool := none
deriving DecidableEq, Repr

/-- A row of the `repo` table (`RepositorySQLModel`); timestamps are Unix
seconds.  `repoExists` is the source's `exists` column. -/
structure RepoRecord where
  url : String
  repoExists : Bool
  nf_files_in_root : String
  nf_files_in_subfolders : String
  title : String
  owner : String
  slugified_name : String
  description : Option String
  updated_at : Nat
  created_at : Nat
  topics : String
  website : Option String
  stars : Nat
  watchers : Nat
  forks : Nat
  last_commit_date : Nat
  number_of_releases : Nat
  latest_release_date : Option Nat := none
  latest_release_name : Option String := none
  head_fork : Option String
  issues : Nat
  open_issues : Nat
  closed_issues : Nat
  prs : Nat
  open_prs : Nat
  closed_prs : Nat
  contributors : Nat
  nextflow_main_lang : Bool
  nextflow_code_chars : Nat
  languages : String
  readme_name : Option String := none
  readme_contains_nextflow : Option Bool := none
deriving DecidableEq, Repr

/-- `"/".join(url.split("/")[-2:]) if url.startswith("http") else url`. -/
def shortUrlOf (url : String) : String :=
  if url.startsWith "http" then
    let parts := url.splitOn "/"
    String.intercalate "/" (parts.drop (parts.length - 2))
  else url

/-- `f.name.split(".")[0]`. -/
def stem (name : String) : String :=
  String.mk (name.data.takeWhile (fun c => c != '.'))

/-- `check_file_exists(repo, path)` for a root-level path: `repo.get_contents`
succeeds iff an entry of that name exists in the root listing. -/
def check_file_exists (root : List Entry) (p : String) : Bool :=
  root.any (fun f => f.name == p)

/-- The README fallback loop of `_collect_repo_metadata`:

    for f in call_rate_aware(lambda: repo.get_contents("")):
        if f.type == "file" and f.name.split(".")[0] == "README":
            readme = f

No `break`: every match overwrites `readme`, so the LAST match wins, and the
stem comparison with `"README"` is case-sensitive. -/
def findReadmeLoop (root : List Entry) : Option Entry :=
  root.foldl
    (fun acc f => if f.type == "file" && stem f.name == "README" then some f else acc)
    none

/-- README selection of `_collect_repo_metadata` (`save_readme` branch):
`README.md` if `check_file_exists(repo, "README.md")`, else the fallback
loop's result. -/
def selectReadme (root : List Entry) : Option Entry :=
  if check_file_exists root "README.md" then
    root.find? (fun f => f.name == "README.md")
  else findReadmeLoop root

/-- `"nextflow" in readme_content.lower()`. -/
def containsNextflow (s : String) : Bool := hasSubstr "nextflow".data (lower s).data

/-- Terminal outcome of `_collect_repo_metadata` for one identifier: a row for
the `filteredrepo` table, a row for the `repo` table, or an uncaught exception
(in the model, the `ZeroDivisionError` of `get_language_percentages`). -/
inductive CollectResult
  | filtered (r : FilteredRecord)
  | found (r : RepoRecord)
  | raised
deriving DecidableEq, Repr

/-- The `d[...]` keys filled by the metadata fetches before the release
details, in source order. -/
def metaFields1 : List String :=
  ["url", "title", "owner", "description", "updated_at", "created_at",
   "topics", "website", "stars", "watchers", "forks", "last_commit_date",
   "get_releases", "number_of_releases"]

/-- The `d[...]` keys filled by the metadata fetches after the release
details, in source order. -/
def metaFields2 : List String :=
  ["head_fork", "issues", "open_issues", "closed_issues", "prs", "open_prs",
   "closed_prs", "contributors", "language", "nextflow_code_chars"]

/-- `_collect_repo_metadata(url, save_readme, filter_having_nf_files)` from
`backend/scrape.py`.  `gh` is the `g.get_repo(short_url)` oracle (`none`
models `UnknownObjectException`).  Returns the terminal outcome together with
the list of remote calls issued, in order.  The percentage strings in the
`languages` column are rendered from `ℚ` (the source formats floats with
`:.2f`); writing the README copy to disk is a local filesystem effect with no
remote call and is not modelled. -/
def collect_repo_metadata (gh : Option GhRepo) (url : String)
    (save_readme filter_having_nf_files : Bool) : CollectResult × List Call :=
  let short_url := shortUrlOf url
  match gh with
  | none => (.filtered ⟨url, false, none⟩, [.getRepo short_url])
  | some repo =>
    let probe := scanRoot repo.dirContents repo.rootContents
    let probeCalls : List Call :=
      [.getRepo short_url, .listDir ""] ++ probe.calls.map .listDir
    if filter_having_nf_files && probe.root.isEmpty && probe.sub.isEmpty then
      (.filtered ⟨url, true, some true⟩, probeCalls)
    else
      let relFields : List String :=
        if repo.releases.length != 0 then
          ["releases_reversed", "latest_release_date", "latest_release_name"]
        else []
      let metaCalls : List Call :=
        (metaFields1 ++ relFields ++ metaFields2).map .fieldFetch
      match get_language_percentages repo.languages with
      | none => (.raised, probeCalls ++ metaCalls ++ [.fieldFetch "languages"])
      | some percs =>
        let readmeSel : Option Entry :=
          if save_readme then selectReadme repo.rootContents else none
        let readmeCalls : List Call :=
          if save_readme then
            .fileExists "README.md" ::
              (if check_file_exists repo.rootContents "README.md" then
                [.getFile "README.md"]
              else [.listDir ""])
          else []
        let rdme : Option String × Option Bool :=
          match readmeSel with
          | none => (none, none)
          | some f =>
            match repo.fileText f.path with
            | none => (some f.name, none)
            | some txt => (some f.name, some (containsNextflow txt))
        let row : RepoRecord :=
          { url := repo.htmlUrl
            repoExists := true
            nf_files_in_root := String.intercalate ", " probe.root
            nf_files_in_subfolders := String.intercalate ", " probe.sub
            title := repo.name
            owner := repo.ownerLogin
            slugified_name := repo.name ++ "--" ++ repo.ownerLogin
            description := repo.description
            updated_at := repo.updatedAt
            created_at := repo.createdAt
            topics := String.intercalate ", " repo.topics
            website := repo.homepage
            stars := repo.stars
            watchers := repo.watchers
            forks := repo.forks
            last_commit_date := repo.lastCommitDate
            number_of_releases := repo.releases.length
            latest_release_date :=
              if repo.releases.length != 0 then repo.releases.getLast?.map Prod.fst
              else none
            latest_release_name :=
              if repo.releases.length != 0 then repo.releases.getLast?.map Prod.snd
              else none
            head_fork := repo.parentFullName
            issues := repo.issuesAll
            open_issues := repo.issuesOpen
            closed_issues := repo.issuesClosed
            prs := repo.prsAll
            open_prs := repo.prsOpen
            closed_prs := repo.prsClosed
            contributors := repo.contributors
            nextflow_main_lang := repo.language == some "Nextflow"
            nextflow_code_chars :=
              (((repo.languages.find? (fun lb => lb.1 == "Nextflow")).map
                Prod.snd).getD 0)
            languages :=
              String.intercalate ", "
                (percs.map (fun nc => nc.1 ++ ": " ++ toString nc.2 ++ "%"))
            readme_name := rdme.1
            readme_contains_nextflow := rdme.2 }
        (.found row, probeCalls ++ metaCalls ++ [.fieldFetch "languages"] ++ readmeCalls)

/-- The incremental store: the `repo` and `filteredrepo` SQLite tables, keyed
by `url`. -/
structure Store where
  repoTable : List RepoRecord
  filteredTable : List FilteredRecord
deriving DecidableEq, Repr

/-- One iteration of the loop in `find_metadata_for_urls`: skip if the url is
already in the `repo` table, then skip if it is in the `filteredrepo` table;
otherwise run the collection (`collectFn`, an oracle returning
`_collect_repo_metadata`'s outcome together with the number of remote calls it
made) and commit the produced row — except that an uncaught exception leaves
the session without `session.add`, so nothing is persisted.  The second
component is the number of remote calls performed by this iteration. -/
def processUrl (collectFn : String → CollectResult × Nat) (store : Store)
    (url : String) : Store × Nat :=
  if store.repoTable.any (fun r => r.url == url) then (store, 0)
  else if store.filteredTable.any (fun r => r.url == url) then (store, 0)
  else
    match collectFn url with
    | (.found r, calls) =>
      ({ store with repoTable := store.repoTable ++ [r] }, calls)
    | (.filtered r, calls) =>
      ({ store with filteredTable := store.filteredTable ++ [r] }, calls)
    | (.raised, calls) => (store, calls)

/-- The driver loop of `find_metadata_for_urls` over the whole url list. -/
def find_metadata_for_urls (collectFn : String → CollectResult × Nat)
    (store : Store) (urls : List String) : Store :=
  urls.foldl (fun s u => (processUrl collectFn s u).1) store

/-- A search window of `search_gh`: a whole creation year
(`created:Y-01-01..Y-12-31`), a whole month (`created:Y-M-01..Y-M-last`), or a
single day (`created:Y-M-D`). -/
inductive Window
  | year (y : Nat)
  | month (y m : Nat)
  | day (y m d : Nat)
deriving DecidableEq, Repr

/-- An observable action of `search_gh`: handing a window's result set to
`_process_github_search_result` (direct pagination of that window), with the
reported total count. -/
inductive SearchAction
  | paginate (w : Window) (count : Nat)
deriving DecidableEq, Repr

/-- Gregorian leap-year rule, as used by Python's `calendar.monthrange`. -/
def isLeapYear (y : Nat) : Bool :=
  (y % 4 == 0 && y % 100 != 0) || y % 400 == 0

/-- `calendar.monthrange(year, month)[1]`: the number of days of the month. -/
def monthDays (y m : Nat) : Nat :=
  if m == 2 then (if isLeapYear y then 29 else 28)
  else if m == 4 || m == 6 || m == 9 || m == 11 then 30
  else 31

/-- The month branch of `search_gh`: read the month window's total count
(through the rate-limit wrapper, `counts` being the oracle of reported
counts); under 1000, paginate the month directly; otherwise fall through to
one single-day window per day of the month, each paginated regardless of its
own count. -/
def processMonth (counts : Window → Nat) (y m : Nat) : List SearchAction :=
  let c := counts (.month y m)
  if c < 1000 then [.paginate (.month y m) c]
  else
    (List.range' 1 (monthDays y m)).map
      (fun d => .paginate (.day y m d) (counts (.day y m d)))

/-- The year branch of `search_gh`: read the year window's total count; under
1000, paginate the year directly; otherwise search month by month,
`for month in range(1, 12 + 1)`. -/
def processYear (counts : Window → Nat) (y : Nat) : List SearchAction :=
  let c := counts (.year y)
  if c < 1000 then [.paginate (.year y) c]
  else (List.range' 1 12).flatMap (fun m => processMonth counts y m)

/-- `search_gh`'s partition loop, `for year in range(2015, today.year + 1)`,
as the sequence of direct-pagination actions it performs. -/
def search_gh (counts : Window → Nat) (curYear : Nat) : List SearchAction :=
  (List.range' 2015 (curYear + 1 - 2015)).flatMap (fun y => processYear counts y)

/-- One entry of a search result page, with the attributes
`_process_github_search_result` reads. -/
structure SearchEntry where
  fullName : String
  ownerLogin : String
  htmlUrl : String
  updatedAt : Nat
  stars : Nat
deriving DecidableEq, Repr

/-- The two skip checks of `_process_github_search_result`:
`repo.owner.login in BLACKLIST` and `repo.full_name in BLACKLIST`. -/
def blacklisted (e : SearchEntry) : Bool :=
  BLACKLIST.contains e.ownerLogin || BLACKLIST.contains e.fullName

/-- `paginated_list.get_page(i)` over the flat result sequence `entries` with
page size `psz`. -/
def get_page (entries : List SearchEntry) (psz i : Nat) : List SearchEntry :=
  (entries.drop (psz * i)).take psz

/-- The page loop of `_process_github_search_result`: fetch page `i` (through
the rate-limit wrapper), `break` on an empty page, else collect its entries
and continue with page `i + 1`.  `fuel` bounds the iterations observed of the
`while True` loop. -/
def pageLoop (entries : List SearchEntry) (psz : Nat) : Nat → Nat → List SearchEntry
  | _, 0 => []
  | i, fuel + 1 =>
    let page := get_page entries psz i
    if page.isEmpty then [] else page ++ pageLoop entries psz (i + 1) fuel

/-- One element of `repo_infos` as appended by
`_process_github_search_result`. -/
structure RepoInfo where
  name : String
  url : String
  last_updated : Nat
  stars : Nat
  issues : Int
deriving DecidableEq, Repr

/-- The entry-processing part of `_process_github_search_result`: walk the
collected pages in order, silently skip blacklisted entries, and append a
`repo_infos` row (with `issues = -1`) for every other entry. -/
def process_github_search_result (entries : List SearchEntry) (psz fuel : Nat) :
    List RepoInfo :=
  ((pageLoop entries psz 0 fuel).filter (fun e => !blacklisted e)).map
    (fun e => ⟨e.fullName, e.htmlUrl, e.updatedAt, e.stars, -1⟩)

/-! Concrete instances used by the witness theorems. -/

/-- A call whose first two attempts hit the rate limit and whose third
returns `42`. -/
def attemptsW : Nat → CallOutcome Nat :=
  fun n => if n < 2 then .rateLimited else .ok 42

/-- A store already holding a `Filtered` record for url `"u"`. -/
def storeW : Store := ⟨[], [⟨"u", true, some true⟩]⟩

/-- An empty store. -/
def storeEmpty : Store := ⟨[], []⟩

/-- A collection oracle that always raises, after three remote calls. -/
def collectFnW : String → CollectResult × Nat := fun _ => (.raised, 3)

/-- A count oracle: every year and month window reports 1500 results, every
day window reports 7. -/
def countsW : Window → Nat := fun w =>
  match w with
  | .year _ => 1500
  | .month _ _ => 1500
  | .day _ _ _ => 7

/-- A repository with no `.nf` file in the root nor one level down. -/
def repoW : GhRepo :=
  { htmlUrl := "https://github.com/octocat/Hello-World"
    name := "Hello-World"
    ownerLogin := "octocat"
    description := none
    updatedAt := 0
    createdAt := 0
    topics := []
    homepage := none
    stars := 7
    watchers := 7
    forks := 1
    lastCommitDate := 0
    releases := []
    parentFullName := none
    issuesAll := 0
    issuesOpen := 0
    issuesClosed := 0
    prsAll := 0
    prsOpen := 0
    prsClosed := 0
    contributors := 1
    language := none
    languages := [("Python", 10)]
    rootContents := [⟨"file", "main.py", "main.py"⟩, ⟨"dir", "src", "src"⟩]
    dirContents := fun _ => [⟨"file", "a.py", "src/a.py"⟩]
    fileText := fun _ => none }

/-- Search entries for one window: one ordinary entry, one with a blacklisted
full name, one with a blacklisted owner. -/
def entriesW : List SearchEntry :=
  [⟨"octocat/Hello-World", "octocat", "https://github.com/octocat/Hello-World", 0, 7⟩,
   ⟨"nf-core/modules", "nf-core", "https://github.com/nf-core/modules", 0, 3⟩,
   ⟨"nextflow-io/nextflow", "nextflow-io", "https://github.com/nextflow-io/nextflow", 0, 9⟩]

/-- Directory-contents oracle: directory `d` contains the file `d/b.nf`. -/
def dcW : String → List Entry := fun p =>
  if p == "d" then [⟨"file", "b.nf", "d/b.nf"⟩] else []

/-- A root listing whose first entry is a matching `.nf` file and whose second
entry is the directory `d`. -/
def rootCexW : List Entry := [⟨"file", "a.nf", "a.nf"⟩, ⟨"dir", "d", "d"⟩]

/-- Directory-contents oracle: `d1` contains a nested directory and the file
`d1/c.nf`. -/
def dcAmW : String → List Entry := fun p =>
  if p == "d1" then [⟨"dir", "deep", "d1/deep"⟩, ⟨"file", "c.nf", "d1/c.nf"⟩] else []

/-- A root listing with a directory and a plain file before the first matching
`.nf` file, and a directory after it. -/
def rootAmW : List Entry :=
  [⟨"dir", "d1", "d1"⟩, ⟨"file", "x.py", "x.py"⟩,
   ⟨"file", "a.nf", "a.nf"⟩, ⟨"dir", "d2", "d2"⟩]

/-- A root with two README-stemmed files and no `README.md`. -/
def rootRdCex : List Entry :=
  [⟨"file", "README.txt", "README.txt"⟩, ⟨"file", "README.rst", "README.rst"⟩]

/-- A root whose only file is `readme.txt` (lower-case stem). -/
def rootRdCex2 : List Entry := [⟨"file", "readme.txt", "readme.txt"⟩]

/-- A root containing exactly `README.md`. -/
def rootRdW : List Entry := [⟨"file", "README.md", "README.md"⟩]

/-! Lemmas. -/

lemma percList_isSome (total : ℚ) : ∀ l : List (String × Nat),
    (percList total l).isSome ↔ (l = [] ∨ total ≠ 0) := by
  intro l
  induction l with
  | nil => simp [percList]
  | cons hd tl ih =>
    by_cases h : total = 0
    · simp [percList, h]
    · rcases htl : percList total tl with _ | v
      · rw [htl] at ih
        simp [h] at ih
      · simp [percList, h, htl]

lemma call_rate_aware_ne_rateLimited {α : Type} (attempts : Nat → CallOutcome α) :
    ∀ (fuel i : Nat) (r : CallOutcome α),
      call_rate_aware attempts i fuel = some r → r ≠ .rateLimited := by
  intro fuel
  induction fuel with
  | zero => intro i r h; simp [call_rate_aware] at h
  | succ n ih =>
    intro i r h
    cases ha : attempts i with
    | rateLimited =>
      simp only [call_rate_aware, ha] at h
      exact ih (i + 1) r h
    | ok a =>
      simp only [call_rate_aware, ha, Option.some_inj] at h
      simp [← h]
    | raised e =>
      simp only [call_rate_aware, ha, Option.some_inj] at h
      simp [← h]

lemma call_rate_aware_first {α : Type} (attempts : Nat → CallOutcome α) :
    ∀ (d i fuel : Nat), (∀ j, j < d → attempts (i + j) = .rateLimited) →
      attempts (i + d) ≠ .rateLimited → d < fuel →
      call_rate_aware attempts i fuel = some (attempts (i + d)) := by
  intro d
  induction d with
  | zero =>
    intro i fuel _ hne hfuel
    obtain ⟨f, rfl⟩ : ∃ f, fuel = f + 1 := ⟨fuel - 1, by omega⟩
    cases ha : attempts i with
    | rateLimited => exact absurd (by simpa using ha) hne
    | ok a => simp [call_rate_aware, ha]
    | raised e => simp [call_rate_aware, ha]
  | succ d ih =>
    intro i fuel hbefore hne hfuel
    obtain ⟨f, rfl⟩ : ∃ f, fuel = f + 1 := ⟨fuel - 1, by omega⟩
    have h0 : attempts i = .rateLimited := by simpa using hbefore 0 (by omega)
    have hstep : call_rate_aware attempts i (f + 1)
        = call_rate_aware attempts (i + 1) f := by
      simp [call_rate_aware, h0]
    rw [hstep]
    have hb : ∀ j, j < d → attempts (i + 1 + j) = .rateLimited := by
      intro j hj
      have := hbefore (j + 1) (by omega)
      rwa [show i + (j + 1) = i + 1 + j by omega] at this
    have hne1 : attempts (i + 1 + d) ≠ .rateLimited := by
      rwa [show i + (d + 1) = i + 1 + d by omega] at hne
    have := ih (i + 1) f hb hne1 (by omega)
    rwa [show i + 1 + d = i + (d + 1) by omega] at this

/-! Claim theorems. -/

/-- C9: for every current time and reset timestamp, the sleep duration
computed by `rate_limit_wait` before a retry equals
`max(0, reset - now) + margin` with `margin = 5` seconds; whenever the reset
timestamp is at or before the current time, the sleep equals exactly the
margin. -/
theorem sleep_time_spec (now reset : Int) :
    sleep_time now reset = max 0 (reset - now) + 5
      ∧ (reset ≤ now → sleep_time now reset = 5) := by
  constructor
  · rfl
  · intro h
    unfold sleep_time rateLimitMargin
    omega

/-- Witness for C9 at `now = 100`, `reset = 90` (reset in the past). -/
theorem sleep_time_spec_witness : sleep_time 100 90 = 5 :=
  (sleep_time_spec 100 90).2 (by decide)

/-- C10: `get_language_percentages` succeeds exactly when the per-language
byte map is empty or its byte counts sum to a positive total; on the empty map
it returns the empty map without dividing, and on a non-empty map whose byte
counts sum to zero the division by zero raises (modelled as `none`). -/
theorem get_language_percentages_total_iff :
    get_language_percentages [] = some []
      ∧ ∀ langs : List (String × Nat),
          (get_language_percentages langs).isSome ↔
            (langs = [] ∨ 0 < (langs.map Prod.snd).sum) := by
  refine ⟨rfl, fun langs => ?_⟩
  rw [get_language_percentages, percList_isSome]
  simp only [ne_eq, Nat.cast_eq_zero]
  constructor
  · rintro (h | h)
    · exact Or.inl h
    · exact Or.inr (Nat.pos_of_ne_zero h)
  · rintro (h | h)
    · exact Or.inl h
    · exact Or.inr (Nat.pos_iff_ne_zero.mp h)

/-- Witness for C10: a one-language map with zero bytes raises, the empty map
succeeds. -/
theorem get_language_percentages_witness :
    get_language_percentages [("Python", 0)] = none
      ∧ get_language_percentages [] = some [] := by
  refine ⟨?_, get_language_percentages_total_iff.1⟩
  have h := get_language_percentages_total_iff.2 [("Python", 0)]
  rcases hv : get_language_percentages [("Python", 0)] with _ | v
  · rfl
  · exfalso
    rw [hv] at h
    rcases h.mp (by simp) with h2 | h2
    · simp at h2
    · simp at h2

/-- C2: for every wrapped remote call, `call_rate_aware` never hands a
rate-limit-exceeded outcome to its caller; if the first `k` attempts are
rate-limited and attempt `k` is not, it returns attempt `k`'s outcome — the
value if the call succeeded, the unchanged exception if the call raised
anything else. -/
theorem call_rate_aware_spec {α : Type} (attempts : Nat → CallOutcome α) (k : Nat)
    (hbefore : ∀ j, j < k → attempts j = .rateLimited)
    (hk : attempts k ≠ .rateLimited) :
    (∀ i fuel r, call_rate_aware attempts i fuel = some r → r ≠ .rateLimited)
      ∧ ∀ fuel, k < fuel → call_rate_aware attempts 0 fuel = some (attempts k) := by
  refine ⟨fun i fuel r h => call_rate_aware_ne_rateLimited attempts fuel i r h,
    fun fuel hf => ?_⟩
  have h := call_rate_aware_first attempts k 0 fuel
    (fun j hj => by simpa using hbefore j hj) (by simpa using hk) hf
  simpa using h

/-- Witness for C2: two rate-limited attempts, then success with `42`. -/
theorem call_rate_aware_spec_witness :
    call_rate_aware attemptsW 0 5 = some (CallOutcome.ok 42) := by
  have h := (call_rate_aware_spec attemptsW 2
    (fun j hj => by
      match j, hj with
      | 0, _ => rfl
      | 1, _ => rfl)
    (by decide)).2 5 (by decide)
  rw [h]
  rfl

/-- C3: for an identifier already present in the store in either `Found`
(`repo` table) or `Filtered` (`filteredrepo` table) form, the collection loop
iteration performs zero remote calls and leaves the store — hence both stored
records for it — unchanged; both tables are checked before any collection
begins. -/
theorem skip_if_present (collectFn : String → CollectResult × Nat)
    (store : Store) (url : String)
    (h : store.repoTable.any (fun r => r.url == url)
          ∨ store.filteredTable.any (fun r => r.url == url)) :
    processUrl collectFn store url = (store, 0)
      ∧ find_metadata_for_urls collectFn store [url] = store := by
  have hp : processUrl collectFn store url = (store, 0) := by
    rcases h with h | h
    · simp [processUrl, h]
    · by_cases h1 : store.repoTable.any (fun r => r.url == url)
      · simp [processUrl, h1]
      · simp [processUrl, h1, h]
  exact ⟨hp, by simp [find_metadata_for_urls, hp]⟩

/-- Witness for C3: a store already holding a `Filtered` record for `"u"`. -/
theorem skip_if_present_witness :
    processUrl collectFnW storeW "u" = (storeW, 0) :=
  (skip_if_present collectFnW storeW "u" (Or.inr (by decide))).1

/-- C8: when collection of an identifier raises any exception other than the
rate-limit and does-not-exist conditions, no record (neither `Found` nor
`Filtered`) is persisted for it — the store is unchanged — it is not converted
to a `Filtered` record, and the driver loop continues with the next
identifier. -/
theorem error_no_persist (collectFn : String → CollectResult × Nat)
    (store : Store) (url : String) (rest : List String) (n : Nat)
    (hres : collectFn url = (.raised, n)) :
    (processUrl collectFn store url).1 = store
      ∧ find_metadata_for_urls collectFn store (url :: rest)
          = find_metadata_for_urls collectFn store rest := by
  have h1 : (processUrl collectFn store url).1 = store := by
    unfold processUrl
    by_cases ha : store.repoTable.any (fun r => r.url == url)
    · simp [ha]
    · by_cases hb : store.filteredTable.any (fun r => r.url == url)
      · simp [ha, hb]
      · simp [ha, hb, hres]
  exact ⟨h1, by simp [find_metadata_for_urls, h1]⟩

/-- Witness for C8: a collection that raises leaves the empty store empty. -/
theorem error_no_persist_witness :
    (processUrl collectFnW storeEmpty "x").1 = storeEmpty :=
  (error_no_persist collectFnW storeEmpty "x" [] 3 rfl).1

lemma pageLoop_eq_drop (entries : List SearchEntry) (psz : Nat) (hp : 0 < psz) :
    ∀ (fuel i : Nat), (entries.drop (psz * i)).length ≤ fuel →
      pageLoop entries psz i fuel = entries.drop (psz * i) := by
  intro fuel
  induction fuel with
  | zero =>
    intro i h
    have hnil : entries.drop (psz * i) = [] :=
      List.eq_nil_of_length_eq_zero (by omega)
    simp [pageLoop, hnil]
  | succ f ih =>
    intro i h
    rcases he : entries.drop (psz * i) with _ | ⟨a, rest⟩
    · simp [pageLoop, get_page, he]
    · have hpage : get_page entries psz i = a :: (rest.take (psz - 1)) := by
        rw [get_page, he]
        obtain ⟨q, rfl⟩ : ∃ q, psz = q + 1 := ⟨psz - 1, by omega⟩
        simp
      have hdd : entries.drop (psz * (i + 1)) = (entries.drop (psz * i)).drop psz := by
        rw [List.drop_drop]
        congr 1
      have hlen : (entries.drop (psz * (i + 1))).length ≤ f := by
        have h1 : (entries.drop (psz * i)).length ≤ f + 1 := h
        rw [hdd, he] at *
        simp only [List.length_drop, List.length_cons] at *
        omega
      have hrec := ih (i + 1) hlen
      simp only [pageLoop, hpage, List.isEmpty_cons, if_false, Bool.false_eq_true]
      rw [hrec, hdd, he]
      obtain ⟨q, rfl⟩ : ∃ q, psz = q + 1 := ⟨psz - 1, by omega⟩
      simp [List.take_append_drop]

/-- C6: for every window whose reported count is below the cap, pagination
runs to completion: the yielded rows are exactly the non-blacklisted entries
in order (excluded entries dropped silently), and their number equals the
reported count minus the number of entries whose owner or full name is in the
static blacklist. -/
theorem under_cap_yield_count (entries : List SearchEntry) (count psz fuel : Nat)
    (hcount : entries.length = count) (_hcap : count < 1000)
    (hp : 0 < psz) (hfuel : count ≤ fuel) :
    process_github_search_result entries psz fuel
        = (entries.filter (fun e => !blacklisted e)).map
            (fun e => ⟨e.fullName, e.htmlUrl, e.updatedAt, e.stars, -1⟩)
      ∧ (process_github_search_result entries psz fuel).length
          = count - (entries.filter (fun e => blacklisted e)).length := by
  have hloop : pageLoop entries psz 0 fuel = entries := by
    have h := pageLoop_eq_drop entries psz hp fuel 0 (by simpa [hcount])
    simpa using h
  have hsplit : ∀ l : List SearchEntry,
      (l.filter (fun e => !blacklisted e)).length
        + (l.filter (fun e => blacklisted e)).length = l.length := by
    intro l
    induction l with
    | nil => rfl
    | cons a l ih =>
      cases hb : blacklisted a <;> simp [List.filter_cons, hb] <;> omega
  constructor
  · rw [process_github_search_result, hloop]
  · rw [process_github_search_result, hloop, List.length_map]
    have := hsplit entries
    omega

/-- Witness for C6: three entries, two blacklisted, page size 2. -/
theorem under_cap_yield_count_witness :
    process_github_search_result entriesW 2 5
      = [⟨"octocat/Hello-World", "https://github.com/octocat/Hello-World", 0, 7, -1⟩] := by
  rw [(under_cap_yield_count entriesW 3 2 5 rfl (by decide) (by decide) (by decide)).1]
  rfl

lemma mem_processMonth (counts : Window → Nat) (y m : Nat) (w : Window) (c : Nat)
    (h : SearchAction.paginate w c ∈ processMonth counts y m) :
    c = counts w
      ∧ (∀ y2, w = Window.year y2 → counts w < 1000)
      ∧ (∀ y2 m2, w = Window.month y2 m2 → counts w < 1000) := by
  simp only [processMonth] at h
  split at h
  next hc =>
    simp only [List.mem_singleton, SearchAction.paginate.injEq] at h
    obtain ⟨rfl, rfl⟩ := h
    refine ⟨rfl, ?_, ?_⟩
    · intro y2 h2
      cases h2
    · intro y2 m2 h2
      cases h2
      exact hc
  next hc =>
    simp only [List.mem_map, SearchAction.paginate.injEq] at h
    obtain ⟨d, hd, rfl, rfl⟩ := h
    refine ⟨rfl, ?_, ?_⟩
    · intro y2 h2
      cases h2
    · intro y2 m2 h2
      cases h2

lemma mem_processYear (counts : Window → Nat) (y : Nat) (w : Window) (c : Nat)
    (h : SearchAction.paginate w c ∈ processYear counts y) :
    c = counts w
      ∧ (∀ y2, w = Window.year y2 → counts w < 1000)
      ∧ (∀ y2 m2, w = Window.month y2 m2 → counts w < 1000) := by
  simp only [processYear] at h
  split at h
  next hc =>
    simp only [List.mem_singleton, SearchAction.paginate.injEq] at h
    obtain ⟨rfl, rfl⟩ := h
    refine ⟨rfl, ?_, ?_⟩
    · intro y2 h2
      cases h2
      exact hc
    · intro y2 m2 h2
      cases h2
  next hc =>
    rw [List.mem_flatMap] at h
    obtain ⟨m, _, hmem⟩ := h
    exact mem_processMonth counts y m w c hmem

/-- C1: every window `search_gh` paginates directly is paginated with its own
reported count, and is never an at-or-over-cap year or month window; an
over-cap year window is instead replaced by its 12 single-month windows in
chronological order, an over-cap month window by its per-day windows, and a
day window is always paginated regardless of its count (the per-day branch
carries no cap test). -/
theorem search_gh_subdivides (counts : Window → Nat) (curYear : Nat) :
    (∀ w c, SearchAction.paginate w c ∈ search_gh counts curYear →
        c = counts w
        ∧ (∀ y, w = Window.year y → counts w < 1000)
        ∧ (∀ y m, w = Window.month y m → counts w < 1000))
    ∧ (∀ y, 1000 ≤ counts (Window.year y) →
        processYear counts y
          = (List.range' 1 12).flatMap (fun m => processMonth counts y m))
    ∧ (∀ y m, 1000 ≤ counts (Window.month y m) →
        processMonth counts y m
          = (List.range' 1 (monthDays y m)).map
              (fun d => SearchAction.paginate (Window.day y m d)
                (counts (Window.day y m d)))) := by
  refine ⟨?_, ?_, ?_⟩
  · intro w c hmem
    rw [search_gh, List.mem_flatMap] at hmem
    obtain ⟨y, _, hmem⟩ := hmem
    exact mem_processYear counts y w c hmem
  · intro y hy
    simp only [processYear]
    rw [if_neg (by omega)]
  · intro y m hm
    simp only [processMonth]
    rw [if_neg (by omega)]

/-- Witness for C1 with `countsW` (years and months over the cap, days under):
the 2016 year window subdivides into its 12 months, the February 2016 window
subdivides into its 29 days, and the 2015-01-01 day window is paginated with
its reported count 7. -/
theorem search_gh_subdivides_witness :
    processYear countsW 2016
        = (List.range' 1 12).flatMap (fun m => processMonth countsW 2016 m)
      ∧ processMonth countsW 2016 2
          = (List.range' 1 (monthDays 2016 2)).map
              (fun d => SearchAction.paginate (Window.day 2016 2 d)
                (countsW (Window.day 2016 2 d)))
      ∧ 7 = countsW (Window.day 2015 1 1) := by
  refine ⟨(search_gh_subdivides countsW 2016).2.1 2016 (by decide),
          (search_gh_subdivides countsW 2016).2.2 2016 2 (by decide), ?_⟩
  have hmem : SearchAction.paginate (Window.day 2015 1 1) 7 ∈ search_gh countsW 2015 := by
    decide
  exact ((search_gh_subdivides countsW 2015).1 (Window.day 2015 1 1) 7 hmem).1

/-- C4: for an existing repository, with marker files required
(`filter_having_nf_files`) and the probe finding no `.nf` file in the root nor
one level down, `_collect_repo_metadata` returns the
`Filtered(no-marker-files)` row (`exists = True`, `no_nf_files = True`) and
performs none of the metadata fetches: fields such as `stars` and
`description` are never requested. -/
theorem filter_short_circuit (repo : GhRepo) (url : String) (sr : Bool)
    (hroot : (scanRoot repo.dirContents repo.rootContents).root = [])
    (hsub : (scanRoot repo.dirContents repo.rootContents).sub = []) :
    (collect_repo_metadata (some repo) url sr true).1
        = CollectResult.filtered ⟨url, true, some true⟩
      ∧ Call.fieldFetch "stars" ∉ (collect_repo_metadata (some repo) url sr true).2
      ∧ Call.fieldFetch "description" ∉ (collect_repo_metadata (some repo) url sr true).2 := by
  refine ⟨?_, ?_, ?_⟩ <;> simp [collect_repo_metadata, hroot, hsub]

/-- Witness for C4: `repoW` (no `.nf` anywhere) is filtered. -/
theorem filter_short_circuit_witness :
    (collect_repo_metadata (some repoW) "octocat/Hello-World" true true).1
      = CollectResult.filtered ⟨"octocat/Hello-World", true, some true⟩ :=
  (filter_short_circuit repoW "octocat/Hello-World" true (by decide) (by decide)).1

lemma scanSubdir_eq_find : ∀ es : List Entry,
    scanSubdir es = ((es.find? isNfFile).map (fun f => f.path)).toList := by
  intro es
  induction es with
  | nil => rfl
  | cons f rest ih =>
    by_cases ht : f.type == "file"
    · by_cases hn : endswith f.name ".nf"
      · simp [scanSubdir, ht, hn, List.find?_cons, isNfFile]
      · simp [scanSubdir, ht, hn, List.find?_cons, isNfFile, ih]
    · simp [scanSubdir, ht, List.find?_cons, isNfFile, ih]

/-- Counterexample to C5 as stated: with root listing
`[a.nf (file), d (dir)]` and `d` containing `d/b.nf`, the first root-level
match ends the whole root iteration, so the root-level directory `d` is never
scanned (no listing call for it, no subfolder match recorded) — contradicting
"every root-level directory is scanned even when a root-level match was
already found". -/
theorem probe_scans_all_dirs_cex :
    isDir ⟨"dir", "d", "d"⟩
      ∧ (⟨"dir", "d", "d"⟩ : Entry) ∈ rootCexW
      ∧ isNfFile ⟨"file", "b.nf", "d/b.nf"⟩
      ∧ (⟨"file", "b.nf", "d/b.nf"⟩ : Entry) ∈ dcW "d"
      ∧ scanRoot dcW rootCexW = ⟨["a.nf"], [], []⟩
      ∧ "d" ∉ (scanRoot dcW rootCexW).calls := by
  decide

lemma scanRoot_cons_skip (dc : String → List Entry) (e : Entry) (l : List Entry)
    (h : isNfFile e = false) :
    scanRoot dc (e :: l)
      = if isDir e then
          ⟨(scanRoot dc l).root,
           scanSubdir (dc e.path) ++ (scanRoot dc l).sub,
           e.path :: (scanRoot dc l).calls⟩
        else scanRoot dc l := by
  by_cases ht : e.type == "file"
  · have hn : endswith e.name ".nf" = false := by
      simpa [isNfFile, ht] using h
    have htype : e.type = "file" := by simpa using ht
    have hdir : isDir e = false := by
      simp [isDir, htype]
    simp [scanRoot, ht, hn, hdir]
  · by_cases hd : e.type == "dir"
    · have hdir : isDir e = true := by simpa [isDir] using hd
      simp [scanRoot, ht, hd, hdir]
    · have hdir : isDir e = false := by simpa [isDir] using hd
      simp [scanRoot, ht, hd, hdir]

lemma scanRoot_no_match (dc : String → List Entry) :
    ∀ es, (∀ e ∈ es, isNfFile e = false) →
      scanRoot dc es
        = ⟨[],
           (es.filter isDir).flatMap (fun e => scanSubdir (dc e.path)),
           (es.filter isDir).map (fun e => e.path)⟩ := by
  intro es
  induction es with
  | nil => intro _; rfl
  | cons e l ih =>
    intro h
    have he : isNfFile e = false := h e (by simp)
    have hl := ih (fun x hx => h x (by simp [hx]))
    rw [scanRoot_cons_skip dc e l he, hl]
    by_cases hd : isDir e
    · simp [List.filter_cons, hd]
    · simp [List.filter_cons, hd]

lemma scanRoot_first_match (dc : String → List Entry) :
    ∀ pre (f : Entry) post, (∀ e ∈ pre, isNfFile e = false) → isNfFile f = true →
      scanRoot dc (pre ++ f :: post)
        = ⟨[f.path],
           (pre.filter isDir).flatMap (fun e => scanSubdir (dc e.path)),
           (pre.filter isDir).map (fun e => e.path)⟩ := by
  intro pre
  induction pre with
  | nil =>
    intro f post _ hf
    rw [isNfFile, Bool.and_eq_true] at hf
    obtain ⟨ht, hn⟩ := hf
    simp [scanRoot, ht, hn]
  | cons e pre ih =>
    intro f post h hf
    have he : isNfFile e = false := h e (by simp)
    have hrec := ih f post (fun x hx => h x (by simp [hx])) hf
    rw [List.cons_append, scanRoot_cons_skip dc e _ he, hrec]
    by_cases hd : isDir e
    · simp [List.filter_cons, hd]
    · simp [List.filter_cons, hd]

/-- C5 amended: the first matching root-level file ends the ENTIRE root
iteration (directories after it are not scanned); each root-level directory
encountered before that point — or all of them when no root file matches —
has its immediate children listed exactly once and contributes at most its
first matching file (first-match rule applied independently per
subdirectory); listing calls are made only for root-level directory entries,
never deeper. -/
theorem probe_first_match_one_level (dc : String → List Entry) :
    (∀ pre (f : Entry) post, (∀ e ∈ pre, isNfFile e = false) → isNfFile f = true →
        scanRoot dc (pre ++ f :: post)
          = ⟨[f.path],
             (pre.filter isDir).flatMap (fun e => scanSubdir (dc e.path)),
             (pre.filter isDir).map (fun e => e.path)⟩)
    ∧ (∀ es, (∀ e ∈ es, isNfFile e = false) →
        scanRoot dc es
          = ⟨[],
             (es.filter isDir).flatMap (fun e => scanSubdir (dc e.path)),
             (es.filter isDir).map (fun e => e.path)⟩)
    ∧ (∀ es, scanSubdir es = ((es.find? isNfFile).map (fun f => f.path)).toList) :=
  ⟨scanRoot_first_match dc, scanRoot_no_match dc, scanSubdir_eq_find⟩

/-- Witness for C5 (amended): a directory and a plain file before the first
`.nf` file, a directory after it; only `d1` is listed, post-match `d2` is
not. -/
theorem probe_first_match_one_level_witness :
    scanRoot dcAmW rootAmW = ⟨["a.nf"], ["d1/c.nf"], ["d1"]⟩ := by
  have h := (probe_first_match_one_level dcAmW).1
    [⟨"dir", "d1", "d1"⟩, ⟨"file", "x.py", "x.py"⟩]
    ⟨"file", "a.nf", "a.nf"⟩
    [⟨"dir", "d2", "d2"⟩]
    (by decide) (by decide)
  have hsplit : rootAmW
      = [⟨"dir", "d1", "d1"⟩, ⟨"file", "x.py", "x.py"⟩]
          ++ (⟨"file", "a.nf", "a.nf"⟩ : Entry) :: [⟨"dir", "d2", "d2"⟩] := rfl
  rw [hsplit, h]
  decide

lemma foldl_last_match (p : Entry → Bool) :
    ∀ (l : List Entry) (acc : Option Entry),
      l.foldl (fun a f => if p f then some f else a) acc
        = (l.reverse.find? p).or acc := by
  intro l
  induction l with
  | nil => intro acc; simp
  | cons f rest ih =>
    intro acc
    rw [List.foldl_cons, ih, List.reverse_cons, List.find?_append]
    cases hf : rest.reverse.find? p with
    | some v => simp [Option.or]
    | none =>
      by_cases hp : p f
      · simp [List.find?_cons, hp, Option.or]
      · simp [List.find?_cons, hp, Option.or]

/-- Counterexample to C7 as stated: with no `README.md` and two README-stemmed
root files, the fallback loop selects the LAST one (`README.rst`), not the
first; and a file whose stem equals "README" only case-insensitively
(`readme.txt`) is not selected at all — the comparison is case-sensitive. -/
theorem readme_selection_cex :
    selectReadme rootRdCex = some ⟨"file", "README.rst", "README.rst"⟩
      ∧ selectReadme rootRdCex ≠ some ⟨"file", "README.txt", "README.txt"⟩
      ∧ lower (stem "readme.txt") = lower "README"
      ∧ selectReadme rootRdCex2 = none := by
  decide

/-- C7 amended: when a root entry named exactly `README.md` exists, the
selected README is named `README.md`; otherwise the collector selects the
LAST root-level file whose name stem equals "README" exactly
(case-sensitively) — `none` when there is no such file. -/
theorem readme_selection_amended (root : List Entry) :
    (check_file_exists root "README.md" = true →
        ∃ e, selectReadme root = some e ∧ e.name = "README.md")
    ∧ (check_file_exists root "README.md" = false →
        selectReadme root
          = root.reverse.find?
              (fun f => f.type == "file" && stem f.name == "README")) := by
  constructor
  · intro h
    rw [selectReadme, if_pos h]
    have hex : ∃ x, x ∈ root ∧ (x.name == "README.md") = true := by
      simpa [check_file_exists, List.any_eq_true] using h
    have hs : (root.find? (fun f => f.name == "README.md")).isSome :=
      List.find?_isSome.mpr (by obtain ⟨x, hx, hp⟩ := hex; exact ⟨x, hx, hp⟩)
    obtain ⟨v, hv⟩ := Option.isSome_iff_exists.mp hs
    refine ⟨v, hv, ?_⟩
    have hp := List.find?_some hv
    simpa using hp
  · intro h
    rw [selectReadme, if_neg (by simp [h]), findReadmeLoop, foldl_last_match]
    simp

/-- Witness for C7 (amended): a root with exactly `README.md`, and the
two-README root from the counterexample. -/
theorem readme_selection_amended_witness :
    (∃ e, selectReadme rootRdW = some e ∧ e.name = "README.md")
      ∧ selectReadme rootRdCex
          = rootRdCex.reverse.find?
              (fun f => f.type == "file" && stem f.name == "README") :=
  ⟨(readme_selection_amended rootRdW).1 (by decide),
   (readme_selection_amended rootRdCex).2 (by decide)⟩
